import Mathlib

/-!
Verification of the 2Q cache (`src/src/lib.rs` of `cache-2q`).

The Rust structure `Cache<K, V>` holds three `VecDeque`s: `frequent` and
`recent` hold key/value slots, `ghost` holds bare keys.  A `VecDeque` is
modelled as a `List` whose head is the front of the deque: `push_front` is
`List.cons`, `pop_back` is `List.getLast?` plus `List.dropLast`,
`remove(i)` is `List.eraseIdx i` (the removed element being `l[i]?`), and
`iter().position(p)` is `List.findIdx? p`.  Rust `usize` arithmetic here is
only `size / 4`, `size - max_recent`, `size / 2` and `len + 1`, none of
which can overflow or underflow for realistic sizes, so plain `Nat` is a
faithful model.  The panic in `Cache::new` (`assert!(size > 0)`) is
modelled by returning `Option`: `none` is the panic.
-/

namespace TwoQ

/-- The type of items in the recent and frequent lists (`CacheEntry` in the
source). -/
structure CacheEntry (K V : Type) where
  key : K
  value : V
deriving DecidableEq, Repr

/-- The 2Q cache (`Cache` in the source): three ordered segments and their
fixed capacities.  Head of each list = front of the `VecDeque`. -/
structure Cache (K V : Type) where
  frequent : List (CacheEntry K V)
  recent : List (CacheEntry K V)
  ghost : List K
  max_frequent : Nat
  max_recent : Nat
  max_ghost : Nat
deriving DecidableEq, Repr

variable {K V : Type} [DecidableEq K]

/-- `Cache::new(size)`: `assert!(size > 0)` (modelled as `none`), then
`max_recent = max(1, size / 4)`, `max_frequent = size - max_recent`,
`max_ghost = size / 2`, all three segments empty. -/
def Cache.new (K V : Type) (size : Nat) : Option (Cache K V) :=
  if size > 0 then
    let max_recent := max 1 (size / 4)
    let max_frequent := size - max_recent
    let max_ghost := size / 2
    some { frequent := [], recent := [], ghost := [],
           max_frequent := max_frequent, max_recent := max_recent,
           max_ghost := max_ghost }
  else
    none

/-- `Cache::contains_key`: equality scan of `recent`, then `frequent`. -/
def Cache.contains_key (c : Cache K V) (k : K) : Bool :=
  c.recent.any (fun e => e.key == k) || c.frequent.any (fun e => e.key == k)

/-- `Cache::peek`: non-promoting read, scanning `recent` then `frequent`. -/
def Cache.peek (c : Cache K V) (k : K) : Option V :=
  match c.recent.find? (fun e => e.key == k) with
  | some e => some e.value
  | none =>
    match c.frequent.find? (fun e => e.key == k) with
    | some e => some e.value
    | none => none

/-- `Cache::get`: scan `recent` (a hit there changes nothing); otherwise find
the key's position in `frequent`, remove that slot and push it to the front;
otherwise report absent.  The returned pair is (returned value, cache after
the call). -/
def Cache.get (c : Cache K V) (k : K) : Option V × Cache K V :=
  match c.recent.find? (fun e => e.key == k) with
  | some e => (some e.value, c)
  | none =>
    match c.frequent.findIdx? (fun e => e.key == k) with
    | some i =>
      match c.frequent[i]? with
      | some old => (some old.value, { c with frequent := old :: c.frequent.eraseIdx i })
      | none => (none, c)
    | none => (none, c)

/-- `Cache::get_mut`: identical lookup and reordering behaviour to `get`
(the source duplicates the logic with `iter_mut`). -/
def Cache.get_mut (c : Cache K V) (k : K) : Option V × Cache K V :=
  match c.recent.find? (fun e => e.key == k) with
  | some e => (some e.value, c)
  | none =>
    match c.frequent.findIdx? (fun e => e.key == k) with
    | some i =>
      match c.frequent[i]? with
      | some old => (some old.value, { c with frequent := old :: c.frequent.eraseIdx i })
      | none => (none, c)
    | none => (none, c)

/-- `Cache::len`: number of live entries. -/
def Cache.len (c : Cache K V) : Nat :=
  c.recent.length + c.frequent.length

/-- `Cache::is_empty`. -/
def Cache.is_empty (c : Cache K V) : Bool :=
  c.recent.isEmpty && c.frequent.isEmpty

/-- `Cache::remove`: find the key in `recent` then `frequent`; delete the slot
and return its value; `ghost` is untouched. -/
def Cache.remove (c : Cache K V) (k : K) : Option V × Cache K V :=
  match c.recent.findIdx? (fun e => e.key == k) with
  | some i =>
    match c.recent[i]? with
    | some e => (some e.value, { c with recent := c.recent.eraseIdx i })
    | none => (none, c)
  | none =>
    match c.frequent.findIdx? (fun e => e.key == k) with
    | some i =>
      match c.frequent[i]? with
      | some e => (some e.value, { c with frequent := c.frequent.eraseIdx i })
      | none => (none, c)
    | none => (none, c)

/-- `Cache::clear`: empty all three segments, keep the capacities. -/
def Cache.clear (c : Cache K V) : Cache K V :=
  { c with recent := [], ghost := [], frequent := [] }

/-- Slot classification, as computed by `Cache::peek_entry`: an occupied
entry carries its index in `frequent` or `recent`, a vacant entry records
whether the key sits in `ghost` (and where).  `frequent` is checked first,
then `recent`, then `ghost`. -/
inductive EntryLoc where
  | occupiedFrequent (i : Nat)
  | occupiedRecent (i : Nat)
  | vacantGhost (i : Nat)
  | vacantUnknown
deriving DecidableEq, Repr

/-- `Cache::peek_entry`: classify a key without touching any ordering. -/
def Cache.peek_entry (c : Cache K V) (k : K) : EntryLoc :=
  match c.frequent.findIdx? (fun e => e.key == k) with
  | some i => .occupiedFrequent i
  | none =>
    match c.recent.findIdx? (fun e => e.key == k) with
    | some i => .occupiedRecent i
    | none =>
      match c.ghost.findIdx? (fun g => g == k) with
      | some i => .vacantGhost i
      | none => .vacantUnknown

/-- `Cache::entry`: classify, and if the key is occupied in `frequent`,
immediately remove that slot and push it to the front, updating the stored
index to 0. -/
def Cache.entry (c : Cache K V) (k : K) : EntryLoc × Cache K V :=
  match c.peek_entry k with
  | .occupiedFrequent i =>
    match c.frequent[i]? with
    | some e => (.occupiedFrequent 0, { c with frequent := e :: c.frequent.eraseIdx i })
    | none => (.occupiedFrequent i, c)
  | loc => (loc, c)

/-- `VacantEntry::insert`, `VacantKind::Ghost(idx)` arm: remove the key from
`ghost` at `idx`; if `frequent` would overflow, pop its back (discarded, not
sent to ghost); push the new slot to the front of `frequent`. -/
def Cache.vacant_insert_ghost (c : Cache K V) (i : Nat) (k : K) (v : V) : Cache K V :=
  let ghost1 := c.ghost.eraseIdx i
  let frequent1 :=
    if c.frequent.length + 1 > c.max_frequent then c.frequent.dropLast else c.frequent
  { c with ghost := ghost1, frequent := ⟨k, v⟩ :: frequent1 }

/-- `VacantEntry::insert`, `VacantKind::Unknown` arm: if `recent` would
overflow, pop its back; if that pop yielded a slot, push its key onto the
front of `ghost` (first popping the back of `ghost` if it would overflow);
finally push the new slot to the front of `recent`. -/
def Cache.vacant_insert_unknown (c : Cache K V) (k : K) (v : V) : Cache K V :=
  if c.recent.length + 1 > c.max_recent then
    match c.recent.getLast? with
    | some old =>
      let ghost1 :=
        if c.ghost.length + 1 > c.max_ghost then c.ghost.dropLast else c.ghost
      { c with recent := ⟨k, v⟩ :: c.recent.dropLast, ghost := old.key :: ghost1 }
    | none => { c with recent := ⟨k, v⟩ :: c.recent }
  else
    { c with recent := ⟨k, v⟩ :: c.recent }

/-- `OccupiedEntry::insert` applied at index `i` of a segment list:
`mem::replace(self.get_mut(), value)` returns the old value and stores the
new one in place. -/
def replaceValue (l : List (CacheEntry K V)) (i : Nat) (v : V) :
    Option V × List (CacheEntry K V) :=
  match l[i]? with
  | some e => (some e.value, l.set i ⟨e.key, v⟩)
  | none => (none, l)

/-- `Cache::insert`: defined via `entry`, exactly as in the source — the
occupied arms replace the value in place and return the old one, the vacant
arms run the 2Q insertion policy and return `none`. -/
def Cache.insert (c : Cache K V) (k : K) (v : V) : Option V × Cache K V :=
  match c.entry k with
  | (.occupiedFrequent i, c1) =>
    let r := replaceValue c1.frequent i v
    (r.1, { c1 with frequent := r.2 })
  | (.occupiedRecent i, c1) =>
    let r := replaceValue c1.recent i v
    (r.1, { c1 with recent := r.2 })
  | (.vacantGhost i, c1) => (none, c1.vacant_insert_ghost i k v)
  | (.vacantUnknown, c1) => (none, c1.vacant_insert_unknown k v)

/-- `Entry::or_insert(default)`: entry-based insert — occupied entries are
only promoted (by `entry` itself), vacant entries run the insertion policy. -/
def Cache.or_insert (c : Cache K V) (k : K) (v : V) : Cache K V :=
  match c.entry k with
  | (.vacantGhost i, c1) => c1.vacant_insert_ghost i k v
  | (.vacantUnknown, c1) => c1.vacant_insert_unknown k v
  | (_, c1) => c1

/-- Keys currently stored in the `recent` segment, front first. -/
def recentKeys (c : Cache K V) : List K :=
  c.recent.map CacheEntry.key

/-- Keys currently stored in the `frequent` segment, front first. -/
def frequentKeys (c : Cache K V) : List K :=
  c.frequent.map CacheEntry.key

/-- Public mutating operations of the cache, used to describe reachable
states. -/
inductive Op (K V : Type) where
  | opInsert (k : K) (v : V)
  | opOrInsert (k : K) (v : V)
  | opGet (k : K)
  | opGetMut (k : K)
  | opRemove (k : K)
  | opClear

/-- State transition of one public operation. -/
def Cache.applyOp (c : Cache K V) : Op K V → Cache K V
  | .opInsert k v => (c.insert k v).2
  | .opOrInsert k v => c.or_insert k v
  | .opGet k => (c.get k).2
  | .opGetMut k => (c.get_mut k).2
  | .opRemove k => (c.remove k).2
  | .opClear => c.clear

/-- Cache states reachable from `Cache::new(size)` by public operations. -/
inductive Reachable (size : Nat) : Cache K V → Prop where
  | init (c : Cache K V) : Cache.new K V size = some c → Reachable size c
  | step (c : Cache K V) (op : Op K V) : Reachable size c → Reachable size (c.applyOp op)

/-! List toolkit: decompositions for `getElem?`, `findIdx?` and `getLast?`,
matching the `VecDeque` operations used by the source. -/

theorem getElem?_decomp {α : Type} {l : List α} {i : Nat} {a : α} (h : l[i]? = some a) :
    ∃ l₁ l₂, l = l₁ ++ a :: l₂ ∧ l₁.length = i ∧
      l.eraseIdx i = l₁ ++ l₂ ∧ ∀ x, l.set i x = l₁ ++ x :: l₂ := by
  induction l generalizing i with
  | nil => simp at h
  | cons x xs ih =>
    cases i with
    | zero =>
      simp only [List.getElem?_cons_zero, Option.some.injEq] at h
      subst h
      exact ⟨[], xs, rfl, rfl, rfl, fun _ => rfl⟩
    | succ n =>
      simp only [List.getElem?_cons_succ] at h
      obtain ⟨l₁, l₂, hl, hlen, he, hs⟩ := ih h
      refine ⟨x :: l₁, l₂, by rw [List.cons_append, ← hl], by simp [hlen], ?_, ?_⟩
      · rw [List.eraseIdx_cons_succ, he, List.cons_append]
      · intro b
        simp only [List.set_cons_succ, hs b, List.cons_append]

theorem findIdx?_some_decomp {α : Type} {p : α → Bool} {l : List α} {i : Nat}
    (h : l.findIdx? p = some i) :
    ∃ l₁ a l₂, l = l₁ ++ a :: l₂ ∧ l₁.length = i ∧ p a = true ∧
      (∀ b ∈ l₁, p b = false) ∧ l[i]? = some a ∧
      l.eraseIdx i = l₁ ++ l₂ ∧ ∀ x, l.set i x = l₁ ++ x :: l₂ := by
  induction l generalizing i with
  | nil => simp at h
  | cons x xs ih =>
    rw [List.findIdx?_cons] at h
    by_cases hp : p x
    · simp only [hp, if_true, Option.some.injEq] at h
      subst h
      exact ⟨[], x, xs, rfl, rfl, hp, by simp, by simp, rfl, fun _ => rfl⟩
    · simp only [hp, if_false, Bool.false_eq_true] at h
      rw [List.findIdx?_succ] at h
      rcases hxs : xs.findIdx? p with _ | j
      · rw [hxs] at h; simp at h
      · rw [hxs] at h
        simp only [Option.map_some', Option.some.injEq] at h
        subst h
        obtain ⟨l₁, a, l₂, hl, hlen, pa, hfirst, hget, herase, hset⟩ := ih hxs
        refine ⟨x :: l₁, a, l₂, by rw [List.cons_append, ← hl], by simp [hlen], pa,
          ?_, ?_, ?_, ?_⟩
        · intro b hb
          rcases List.mem_cons.mp hb with rfl | hb
          · simpa using hp
          · exact hfirst b hb
        · simpa using hget
        · rw [List.eraseIdx_cons_succ, herase, List.cons_append]
        · intro b
          simp only [List.set_cons_succ, hset b, List.cons_append]

theorem getLast?_decomp {α : Type} {l : List α} {a : α} (h : l.getLast? = some a) :
    ∃ l₁, l = l₁ ++ [a] ∧ l.dropLast = l₁ := by
  obtain ⟨l₁, rfl⟩ := List.getLast?_eq_some_iff.mp h
  exact ⟨l₁, rfl, List.dropLast_concat⟩

theorem set_self_of_getElem? {α : Type} {l : List α} {i : Nat} {a : α}
    (h : l[i]? = some a) : l.set i a = l := by
  obtain ⟨l₁, l₂, hl, -, -, hs⟩ := getElem?_decomp h
  rw [hs a, hl]

theorem moveToFront_perm {α : Type} {l : List α} {i : Nat} {a : α} (h : l[i]? = some a) :
    (a :: l.eraseIdx i).Perm l := by
  obtain ⟨l₁, l₂, hl, -, he, -⟩ := getElem?_decomp h
  rw [he, hl]
  exact List.perm_middle.symm

/-! Bridging lemmas between the boolean key searches of the source and key
membership in a segment. -/

theorem findIdx?_key_none_iff {l : List (CacheEntry K V)} {k : K} :
    l.findIdx? (fun e => e.key == k) = none ↔ k ∉ l.map CacheEntry.key := by
  rw [List.findIdx?_eq_none_iff]
  constructor
  · intro h hk
    obtain ⟨e, he, rfl⟩ := List.mem_map.mp hk
    simpa using h e he
  · intro h e he
    by_contra hb
    simp only [Bool.not_eq_false, beq_iff_eq] at hb
    exact h (List.mem_map.mpr ⟨e, he, hb⟩)

theorem findIdx?_ghost_none_iff {l : List K} {k : K} :
    l.findIdx? (fun g => g == k) = none ↔ k ∉ l := by
  rw [List.findIdx?_eq_none_iff]
  constructor
  · intro h hk
    simpa using h k hk
  · intro h g hg
    by_contra hb
    simp only [Bool.not_eq_false, beq_iff_eq] at hb
    subst hb
    exact h hg

theorem find?_key_none_iff {l : List (CacheEntry K V)} {k : K} :
    l.find? (fun e => e.key == k) = none ↔ k ∉ l.map CacheEntry.key := by
  rw [List.find?_eq_none]
  constructor
  · intro h hk
    obtain ⟨e, he, rfl⟩ := List.mem_map.mp hk
    exact h e he (by simp)
  · intro h e he hb
    simp only [beq_iff_eq] at hb
    exact h (List.mem_map.mpr ⟨e, he, hb⟩)

theorem find?_key_of_mem {l : List (CacheEntry K V)} {k : K}
    (h : k ∈ l.map CacheEntry.key) :
    ∃ e, l.find? (fun e => e.key == k) = some e ∧ e.key = k := by
  rcases hf : l.find? (fun e => e.key == k) with _ | e
  · exact absurd h (find?_key_none_iff.mp hf)
  · exact ⟨e, hf, by simpa using List.find?_some hf⟩

theorem findIdx?_key_of_mem {l : List (CacheEntry K V)} {k : K}
    (h : k ∈ l.map CacheEntry.key) :
    ∃ i, l.findIdx? (fun e => e.key == k) = some i := by
  rcases hf : l.findIdx? (fun e => e.key == k) with _ | i
  · exact absurd h (findIdx?_key_none_iff.mp hf)
  · exact ⟨i, hf⟩

/-! Characterizations of `peek_entry`, `entry`, `insert`, `or_insert`, `get`
and `remove` on each classification branch. -/

theorem peek_entry_frequent {c : Cache K V} {k : K} {i : Nat}
    (hf : c.frequent.findIdx? (fun e => e.key == k) = some i) :
    c.peek_entry k = .occupiedFrequent i := by
  unfold Cache.peek_entry
  rw [hf]

theorem peek_entry_recent {c : Cache K V} {k : K} {i : Nat}
    (hf : c.frequent.findIdx? (fun e => e.key == k) = none)
    (hr : c.recent.findIdx? (fun e => e.key == k) = some i) :
    c.peek_entry k = .occupiedRecent i := by
  unfold Cache.peek_entry
  rw [hf, hr]

theorem peek_entry_ghost {c : Cache K V} {k : K} {i : Nat}
    (hf : c.frequent.findIdx? (fun e => e.key == k) = none)
    (hr : c.recent.findIdx? (fun e => e.key == k) = none)
    (hg : c.ghost.findIdx? (fun g => g == k) = some i) :
    c.peek_entry k = .vacantGhost i := by
  unfold Cache.peek_entry
  rw [hf, hr, hg]

theorem peek_entry_unknown {c : Cache K V} {k : K}
    (hf : c.frequent.findIdx? (fun e => e.key == k) = none)
    (hr : c.recent.findIdx? (fun e => e.key == k) = none)
    (hg : c.ghost.findIdx? (fun g => g == k) = none) :
    c.peek_entry k = .vacantUnknown := by
  unfold Cache.peek_entry
  rw [hf, hr, hg]

theorem entry_frequent {c : Cache K V} {k : K} {i : Nat} {e : CacheEntry K V}
    (hf : c.frequent.findIdx? (fun e => e.key == k) = some i)
    (hget : c.frequent[i]? = some e) :
    c.entry k = (.occupiedFrequent 0, { c with frequent := e :: c.frequent.eraseIdx i }) := by
  unfold Cache.entry
  rw [peek_entry_frequent hf]
  simp only [hget]

theorem entry_recent {c : Cache K V} {k : K} {i : Nat}
    (hf : c.frequent.findIdx? (fun e => e.key == k) = none)
    (hr : c.recent.findIdx? (fun e => e.key == k) = some i) :
    c.entry k = (.occupiedRecent i, c) := by
  unfold Cache.entry
  rw [peek_entry_recent hf hr]

theorem entry_ghost {c : Cache K V} {k : K} {i : Nat}
    (hf : c.frequent.findIdx? (fun e => e.key == k) = none)
    (hr : c.recent.findIdx? (fun e => e.key == k) = none)
    (hg : c.ghost.findIdx? (fun g => g == k) = some i) :
    c.entry k = (.vacantGhost i, c) := by
  unfold Cache.entry
  rw [peek_entry_ghost hf hr hg]

theorem entry_unknown {c : Cache K V} {k : K}
    (hf : c.frequent.findIdx? (fun e => e.key == k) = none)
    (hr : c.recent.findIdx? (fun e => e.key == k) = none)
    (hg : c.ghost.findIdx? (fun g => g == k) = none) :
    c.entry k = (.vacantUnknown, c) := by
  unfold Cache.entry
  rw [peek_entry_unknown hf hr hg]

theorem insert_frequent {c : Cache K V} {k : K} {v : V} {i : Nat} {e : CacheEntry K V}
    (hf : c.frequent.findIdx? (fun e => e.key == k) = some i)
    (hget : c.frequent[i]? = some e) :
    c.insert k v = (some e.value, { c with frequent := ⟨e.key, v⟩ :: c.frequent.eraseIdx i }) := by
  unfold Cache.insert
  rw [entry_frequent hf hget]
  simp [replaceValue]

theorem insert_recent {c : Cache K V} {k : K} {v : V} {i : Nat} {e : CacheEntry K V}
    (hf : c.frequent.findIdx? (fun e => e.key == k) = none)
    (hr : c.recent.findIdx? (fun e => e.key == k) = some i)
    (hget : c.recent[i]? = some e) :
    c.insert k v = (some e.value, { c with recent := c.recent.set i ⟨e.key, v⟩ }) := by
  unfold Cache.insert
  rw [entry_recent hf hr]
  simp [replaceValue, hget]

theorem insert_ghost {c : Cache K V} {k : K} {v : V} {i : Nat}
    (hf : c.frequent.findIdx? (fun e => e.key == k) = none)
    (hr : c.recent.findIdx? (fun e => e.key == k) = none)
    (hg : c.ghost.findIdx? (fun g => g == k) = some i) :
    c.insert k v = (none, c.vacant_insert_ghost i k v) := by
  unfold Cache.insert
  rw [entry_ghost hf hr hg]

theorem insert_unknown {c : Cache K V} {k : K} {v : V}
    (hf : c.frequent.findIdx? (fun e => e.key == k) = none)
    (hr : c.recent.findIdx? (fun e => e.key == k) = none)
    (hg : c.ghost.findIdx? (fun g => g == k) = none) :
    c.insert k v = (none, c.vacant_insert_unknown k v) := by
  unfold Cache.insert
  rw [entry_unknown hf hr hg]

theorem get_recent_hit {c : Cache K V} {k : K} {e : CacheEntry K V}
    (h : c.recent.find? (fun x => x.key == k) = some e) :
    c.get k = (some e.value, c) := by
  unfold Cache.get
  rw [h]

theorem get_frequent_hit {c : Cache K V} {k : K} {i : Nat} {e : CacheEntry K V}
    (hr : c.recent.find? (fun x => x.key == k) = none)
    (hf : c.frequent.findIdx? (fun x => x.key == k) = some i)
    (hget : c.frequent[i]? = some e) :
    c.get k = (some e.value, { c with frequent := e :: c.frequent.eraseIdx i }) := by
  unfold Cache.get
  rw [hr, hf]
  simp only [hget]

theorem get_miss {c : Cache K V} {k : K}
    (hr : c.recent.find? (fun x => x.key == k) = none)
    (hf : c.frequent.findIdx? (fun x => x.key == k) = none) :
    c.get k = (none, c) := by
  unfold Cache.get
  rw [hr, hf]

theorem get_mut_eq_get (c : Cache K V) (k : K) : c.get_mut k = c.get k := by
  unfold Cache.get_mut Cache.get
  rfl

theorem remove_recent_hit {c : Cache K V} {k : K} {i : Nat} {e : CacheEntry K V}
    (hr : c.recent.findIdx? (fun x => x.key == k) = some i)
    (hget : c.recent[i]? = some e) :
    c.remove k = (some e.value, { c with recent := c.recent.eraseIdx i }) := by
  unfold Cache.remove
  rw [hr]
  simp only [hget]

theorem remove_frequent_hit {c : Cache K V} {k : K} {i : Nat} {e : CacheEntry K V}
    (hr : c.recent.findIdx? (fun x => x.key == k) = none)
    (hf : c.frequent.findIdx? (fun x => x.key == k) = some i)
    (hget : c.frequent[i]? = some e) :
    c.remove k = (some e.value, { c with frequent := c.frequent.eraseIdx i }) := by
  unfold Cache.remove
  rw [hr, hf]
  simp only [hget]

theorem remove_miss {c : Cache K V} {k : K}
    (hr : c.recent.findIdx? (fun x => x.key == k) = none)
    (hf : c.frequent.findIdx? (fun x => x.key == k) = none) :
    c.remove k = (none, c) := by
  unfold Cache.remove
  rw [hr, hf]

theorem or_insert_frequent {c : Cache K V} {k : K} {v : V} {i : Nat} {e : CacheEntry K V}
    (hf : c.frequent.findIdx? (fun e => e.key == k) = some i)
    (hget : c.frequent[i]? = some e) :
    c.or_insert k v = { c with frequent := e :: c.frequent.eraseIdx i } := by
  unfold Cache.or_insert
  rw [entry_frequent hf hget]

theorem or_insert_recent {c : Cache K V} {k : K} {v : V} {i : Nat}
    (hf : c.frequent.findIdx? (fun e => e.key == k) = none)
    (hr : c.recent.findIdx? (fun e => e.key == k) = some i) :
    c.or_insert k v = c := by
  unfold Cache.or_insert
  rw [entry_recent hf hr]

theorem or_insert_ghost {c : Cache K V} {k : K} {v : V} {i : Nat}
    (hf : c.frequent.findIdx? (fun e => e.key == k) = none)
    (hr : c.recent.findIdx? (fun e => e.key == k) = none)
    (hg : c.ghost.findIdx? (fun g => g == k) = some i) :
    c.or_insert k v = c.vacant_insert_ghost i k v := by
  unfold Cache.or_insert
  rw [entry_ghost hf hr hg]

theorem or_insert_unknown {c : Cache K V} {k : K} {v : V}
    (hf : c.frequent.findIdx? (fun e => e.key == k) = none)
    (hr : c.recent.findIdx? (fun e => e.key == k) = none)
    (hg : c.ghost.findIdx? (fun g => g == k) = none) :
    c.or_insert k v = c.vacant_insert_unknown k v := by
  unfold Cache.or_insert
  rw [entry_unknown hf hr hg]

/-! The structural invariant of a cache: the keys of each segment are
pairwise distinct, `recent` and `frequent` share no key, and `ghost` is
disjoint from both live segments. -/

structure Inv (c : Cache K V) : Prop where
  recentNodup : (recentKeys c).Nodup
  frequentNodup : (frequentKeys c).Nodup
  ghostNodup : c.ghost.Nodup
  liveDisjoint : ∀ k ∈ recentKeys c, k ∉ frequentKeys c
  ghostRecent : ∀ k ∈ c.ghost, k ∉ recentKeys c
  ghostFrequent : ∀ k ∈ c.ghost, k ∉ frequentKeys c

theorem keys_moveToFront_perm {c : Cache K V} {i : Nat} {e : CacheEntry K V}
    (h : c.frequent[i]? = some e) :
    (e.key :: (c.frequent.eraseIdx i).map CacheEntry.key).Perm (frequentKeys c) := by
  have hp := (moveToFront_perm h).map CacheEntry.key
  simpa [frequentKeys] using hp

theorem Inv.frequentFrontKey {c : Cache K V} (hc : Inv c) {i : Nat} {e f : CacheEntry K V}
    (h : c.frequent[i]? = some e) (hk : f.key = e.key) :
    Inv { c with frequent := f :: c.frequent.eraseIdx i } := by
  have hperm := keys_moveToFront_perm h
  constructor
  · exact hc.recentNodup
  · show (List.map CacheEntry.key (f :: c.frequent.eraseIdx i)).Nodup
    rw [List.map_cons, hk]
    exact hperm.nodup_iff.mpr hc.frequentNodup
  · exact hc.ghostNodup
  · intro x hx hxf
    simp only [frequentKeys, List.map_cons, hk] at hxf
    exact hc.liveDisjoint x hx (hperm.mem_iff.mp hxf)
  · exact hc.ghostRecent
  · intro x hx hxf
    simp only [frequentKeys, List.map_cons, hk] at hxf
    exact hc.ghostFrequent x hx (hperm.mem_iff.mp hxf)

theorem Inv.recentSet {c : Cache K V} (hc : Inv c) {i : Nat} {e : CacheEntry K V}
    (h : c.recent[i]? = some e) (v : V) :
    Inv { c with recent := c.recent.set i ⟨e.key, v⟩ } := by
  have hkeys : (c.recent.set i ⟨e.key, v⟩).map CacheEntry.key = recentKeys c := by
    rw [List.map_set]
    exact set_self_of_getElem? (by rw [List.getElem?_map, h]; rfl)
  constructor
  · show (List.map CacheEntry.key (c.recent.set i ⟨e.key, v⟩)).Nodup
    rw [hkeys]; exact hc.recentNodup
  · exact hc.frequentNodup
  · exact hc.ghostNodup
  · intro x hx
    simp only [recentKeys] at hx
    rw [hkeys] at hx
    exact hc.liveDisjoint x hx
  · intro x hx
    show x ∉ List.map CacheEntry.key (c.recent.set i ⟨e.key, v⟩)
    rw [hkeys]
    exact hc.ghostRecent x hx
  · exact hc.ghostFrequent

theorem Inv.eraseRecentIdx {c : Cache K V} (hc : Inv c) (i : Nat) :
    Inv { c with recent := c.recent.eraseIdx i } := by
  have hsub : List.Sublist ((c.recent.eraseIdx i).map CacheEntry.key) (recentKeys c) :=
    (List.eraseIdx_sublist c.recent i).map CacheEntry.key
  constructor
  · exact List.Nodup.sublist hsub hc.recentNodup
  · exact hc.frequentNodup
  · exact hc.ghostNodup
  · intro x hx
    exact hc.liveDisjoint x (hsub.subset hx)
  · intro x hx hmem
    exact hc.ghostRecent x hx (hsub.subset hmem)
  · exact hc.ghostFrequent

theorem Inv.eraseFrequentIdx {c : Cache K V} (hc : Inv c) (i : Nat) :
    Inv { c with frequent := c.frequent.eraseIdx i } := by
  have hsub : List.Sublist ((c.frequent.eraseIdx i).map CacheEntry.key) (frequentKeys c) :=
    (List.eraseIdx_sublist c.frequent i).map CacheEntry.key
  constructor
  · exact hc.recentNodup
  · exact List.Nodup.sublist hsub hc.frequentNodup
  · exact hc.ghostNodup
  · intro x hx hmem
    exact hc.liveDisjoint x hx (hsub.subset hmem)
  · exact hc.ghostRecent
  · intro x hx hmem
    exact hc.ghostFrequent x hx (hsub.subset hmem)

theorem Inv.vacantGhostInsert {c : Cache K V} (hc : Inv c) {k : K} {i : Nat} (v : V)
    (hkf : k ∉ frequentKeys c) (hkr : k ∉ recentKeys c)
    (hgi : c.ghost[i]? = some k) :
    Inv (c.vacant_insert_ghost i k v) := by
  obtain ⟨g₁, g₂, hg, -, hge, -⟩ := getElem?_decomp hgi
  have hgsub : List.Sublist (c.ghost.eraseIdx i) c.ghost := List.eraseIdx_sublist c.ghost i
  have hknotg : k ∉ c.ghost.eraseIdx i := by
    have hnd : (k :: (g₁ ++ g₂)).Nodup := by
      have hgn := hc.ghostNodup
      rw [hg] at hgn
      exact List.perm_middle.nodup_iff.mp hgn
    rw [hge]
    exact (List.nodup_cons.mp hnd).1
  set F := if c.frequent.length + 1 > c.max_frequent then c.frequent.dropLast
           else c.frequent with hF
  have hFsub : List.Sublist F c.frequent := by
    rw [hF]
    split
    · exact List.dropLast_sublist c.frequent
    · exact List.Sublist.refl c.frequent
  have hFkeys : List.Sublist (F.map CacheEntry.key) (frequentKeys c) := hFsub.map CacheEntry.key
  show Inv { c with ghost := c.ghost.eraseIdx i, frequent := ⟨k, v⟩ :: F }
  constructor
  · exact hc.recentNodup
  · show (List.map CacheEntry.key (⟨k, v⟩ :: F)).Nodup
    rw [List.map_cons]
    exact List.nodup_cons.mpr
      ⟨fun hmem => hkf (hFkeys.subset hmem), List.Nodup.sublist hFkeys hc.frequentNodup⟩
  · exact List.Nodup.sublist hgsub hc.ghostNodup
  · intro x hx hxf
    simp only [frequentKeys, List.map_cons, List.mem_cons] at hxf
    rcases hxf with rfl | hxf
    · exact hkr hx
    · exact hc.liveDisjoint x hx (hFkeys.subset hxf)
  · intro x hx
    exact hc.ghostRecent x (hgsub.subset hx)
  · intro x hx hxf
    simp only [frequentKeys, List.map_cons, List.mem_cons] at hxf
    rcases hxf with rfl | hxf
    · exact hknotg hx
    · exact hc.ghostFrequent x (hgsub.subset hx) (hFkeys.subset hxf)

theorem Inv.recentConsFresh {c : Cache K V} (hc : Inv c) {k : K} (v : V)
    (hkf : k ∉ frequentKeys c) (hkr : k ∉ recentKeys c) (hkg : k ∉ c.ghost) :
    Inv { c with recent := ⟨k, v⟩ :: c.recent } := by
  constructor
  · show (List.map CacheEntry.key (⟨k, v⟩ :: c.recent)).Nodup
    rw [List.map_cons]
    exact List.nodup_cons.mpr ⟨hkr, hc.recentNodup⟩
  · exact hc.frequentNodup
  · exact hc.ghostNodup
  · intro x hx hxf
    simp only [recentKeys, List.map_cons, List.mem_cons] at hx
    rcases hx with rfl | hx
    · exact hkf hxf
    · exact hc.liveDisjoint x hx hxf
  · intro x hx hmem
    simp only [recentKeys, List.map_cons, List.mem_cons] at hmem
    rcases hmem with rfl | hmem
    · exact hkg hx
    · exact hc.ghostRecent x hx hmem
  · exact hc.ghostFrequent

theorem Inv.vacantUnknownInsert {c : Cache K V} (hc : Inv c) {k : K} (v : V)
    (hkf : k ∉ frequentKeys c) (hkr : k ∉ recentKeys c) (hkg : k ∉ c.ghost) :
    Inv (c.vacant_insert_unknown k v) := by
  unfold Cache.vacant_insert_unknown
  split
  · rcases hlast : c.recent.getLast? with _ | old
    · exact hc.recentConsFresh v hkf hkr hkg
    · obtain ⟨rs, hrec, hdrop⟩ := getLast?_decomp hlast
      have hrkeys : recentKeys c = rs.map CacheEntry.key ++ [old.key] := by
        simp [recentKeys, hrec]
      have hoknr : old.key ∉ rs.map CacheEntry.key := by
        have := hc.recentNodup
        rw [hrkeys] at this
        intro hmem
        exact (List.disjoint_left.mp (List.nodup_append.mp this).2.2 hmem) (by simp)
      have hrsnodup : (rs.map CacheEntry.key).Nodup := by
        have := hc.recentNodup
        rw [hrkeys] at this
        exact (List.nodup_append.mp this).1
      have hrssub : ∀ x ∈ rs.map CacheEntry.key, x ∈ recentKeys c := by
        intro x hx
        rw [hrkeys]
        exact List.mem_append_left _ hx
      have hokr : old.key ∈ recentKeys c := by
        rw [hrkeys]
        exact List.mem_append_right _ (by simp)
      have hoknotg : old.key ∉ c.ghost := fun hmem => hc.ghostRecent old.key hmem hokr
      set G := if c.ghost.length + 1 > c.max_ghost then c.ghost.dropLast else c.ghost
        with hG
      have hGsub : List.Sublist G c.ghost := by
        rw [hG]
        split
        · exact List.dropLast_sublist c.ghost
        · exact List.Sublist.refl c.ghost
      show Inv { c with recent := ⟨k, v⟩ :: c.recent.dropLast, ghost := old.key :: G }
      constructor
      · show (List.map CacheEntry.key (⟨k, v⟩ :: c.recent.dropLast)).Nodup
        rw [List.map_cons, hdrop]
        exact List.nodup_cons.mpr ⟨fun hmem => hkr (hrssub _ hmem), hrsnodup⟩
      · exact hc.frequentNodup
      · exact List.nodup_cons.mpr
          ⟨fun hmem => hoknotg (hGsub.subset hmem), List.Nodup.sublist hGsub hc.ghostNodup⟩
      · intro x hx hxf
        simp only [recentKeys, List.map_cons, List.mem_cons, hdrop] at hx
        rcases hx with rfl | hx
        · exact hkf hxf
        · exact hc.liveDisjoint x (hrssub _ hx) hxf
      · intro x hx hmem
        simp only [List.mem_cons] at hx
        simp only [recentKeys, List.map_cons, List.mem_cons, hdrop] at hmem
        rcases hx with rfl | hx
        · rcases hmem with heq | hmem
          · exact hkr (heq ▸ hokr)
          · exact hoknr hmem
        · rcases hmem with rfl | hmem
          · exact hkg (hGsub.subset hx)
          · exact hc.ghostRecent x (hGsub.subset hx) (hrssub _ hmem)
      · intro x hx hmem
        simp only [List.mem_cons] at hx
        rcases hx with rfl | hx
        · exact hc.liveDisjoint _ hokr hmem
        · exact hc.ghostFrequent x (hGsub.subset hx) hmem
  · exact hc.recentConsFresh v hkf hkr hkg

theorem ghost_getElem_of_findIdx? {c : Cache K V} {k : K} {i : Nat}
    (hg : c.ghost.findIdx? (fun g => g == k) = some i) :
    c.ghost[i]? = some k := by
  obtain ⟨l₁, a, l₂, -, -, pa, -, hget, -, -⟩ := findIdx?_some_decomp hg
  have : a = k := by simpa using pa
  rw [hget, this]

theorem inv_insert {c : Cache K V} (hc : Inv c) (k : K) (v : V) :
    Inv (c.insert k v).2 := by
  rcases hff : c.frequent.findIdx? (fun e => e.key == k) with _ | i
  · rcases hrr : c.recent.findIdx? (fun e => e.key == k) with _ | i
    · rcases hgg : c.ghost.findIdx? (fun g => g == k) with _ | i
      · rw [insert_unknown hff hrr hgg]
        exact hc.vacantUnknownInsert v (findIdx?_key_none_iff.mp hff)
          (findIdx?_key_none_iff.mp hrr) (findIdx?_ghost_none_iff.mp hgg)
      · rw [insert_ghost hff hrr hgg]
        exact hc.vacantGhostInsert v (findIdx?_key_none_iff.mp hff)
          (findIdx?_key_none_iff.mp hrr) (ghost_getElem_of_findIdx? hgg)
    · obtain ⟨l₁, e, l₂, -, -, -, -, hget, -, -⟩ := findIdx?_some_decomp hrr
      rw [insert_recent hff hrr hget]
      exact hc.recentSet hget v
  · obtain ⟨l₁, e, l₂, -, -, -, -, hget, -, -⟩ := findIdx?_some_decomp hff
    rw [insert_frequent hff hget]
    exact hc.frequentFrontKey hget rfl

theorem inv_or_insert {c : Cache K V} (hc : Inv c) (k : K) (v : V) :
    Inv (c.or_insert k v) := by
  rcases hff : c.frequent.findIdx? (fun e => e.key == k) with _ | i
  · rcases hrr : c.recent.findIdx? (fun e => e.key == k) with _ | i
    · rcases hgg : c.ghost.findIdx? (fun g => g == k) with _ | i
      · rw [or_insert_unknown hff hrr hgg]
        exact hc.vacantUnknownInsert v (findIdx?_key_none_iff.mp hff)
          (findIdx?_key_none_iff.mp hrr) (findIdx?_ghost_none_iff.mp hgg)
      · rw [or_insert_ghost hff hrr hgg]
        exact hc.vacantGhostInsert v (findIdx?_key_none_iff.mp hff)
          (findIdx?_key_none_iff.mp hrr) (ghost_getElem_of_findIdx? hgg)
    · rw [or_insert_recent hff hrr]
      exact hc
  · obtain ⟨l₁, e, l₂, -, -, -, -, hget, -, -⟩ := findIdx?_some_decomp hff
    rw [or_insert_frequent hff hget]
    exact hc.frequentFrontKey hget rfl

theorem inv_get {c : Cache K V} (hc : Inv c) (k : K) : Inv (c.get k).2 := by
  rcases hr : c.recent.find? (fun x => x.key == k) with _ | e
  · rcases hff : c.frequent.findIdx? (fun x => x.key == k) with _ | i
    · rw [get_miss hr hff]
      exact hc
    · obtain ⟨l₁, e, l₂, -, -, -, -, hget, -, -⟩ := findIdx?_some_decomp hff
      rw [get_frequent_hit hr hff hget]
      exact hc.frequentFrontKey hget rfl
  · rw [get_recent_hit hr]
    exact hc

theorem inv_get_mut {c : Cache K V} (hc : Inv c) (k : K) : Inv (c.get_mut k).2 := by
  rw [get_mut_eq_get]
  exact inv_get hc k

theorem inv_remove {c : Cache K V} (hc : Inv c) (k : K) : Inv (c.remove k).2 := by
  rcases hrr : c.recent.findIdx? (fun x => x.key == k) with _ | i
  · rcases hff : c.frequent.findIdx? (fun x => x.key == k) with _ | i
    · rw [remove_miss hrr hff]
      exact hc
    · obtain ⟨l₁, e, l₂, -, -, -, -, hget, -, -⟩ := findIdx?_some_decomp hff
      rw [remove_frequent_hit hrr hff hget]
      exact hc.eraseFrequentIdx i
  · obtain ⟨l₁, e, l₂, -, -, -, -, hget, -, -⟩ := findIdx?_some_decomp hrr
    rw [remove_recent_hit hrr hget]
    exact hc.eraseRecentIdx i

theorem inv_clear (c : Cache K V) : Inv c.clear := by
  constructor <;> simp [Cache.clear, recentKeys, frequentKeys]

theorem inv_new {size : Nat} {c : Cache K V} (h : Cache.new K V size = some c) :
    Inv c := by
  unfold Cache.new at h
  split at h
  · simp only [Option.some.injEq] at h
    subst h
    constructor <;> simp [recentKeys, frequentKeys]
  · exact absurd h (by simp)

theorem reachable_inv {size : Nat} {c : Cache K V} (h : Reachable size c) : Inv c := by
  induction h with
  | init c hc => exact inv_new hc
  | step c op hr ih =>
    cases op with
    | opInsert k v => exact inv_insert ih k v
    | opOrInsert k v => exact inv_or_insert ih k v
    | opGet k => exact inv_get ih k
    | opGetMut k => exact inv_get_mut ih k
    | opRemove k => exact inv_remove ih k
    | opClear => exact inv_clear c

theorem find?_middle {α : Type} {p : α → Bool} {l₁ l₂ : List α} {a : α}
    (h₁ : ∀ b ∈ l₁, p b = false) (ha : p a = true) :
    (l₁ ++ a :: l₂).find? p = some a := by
  induction l₁ with
  | nil => simpa using List.find?_cons_of_pos l₂ ha
  | cons x xs ih =>
    rw [List.cons_append, List.find?_cons_of_neg]
    · exact ih fun b hb => h₁ b (List.mem_cons_of_mem x hb)
    · simp [h₁ x (List.mem_cons_self x xs)]

theorem keys_set_same {l : List (CacheEntry K V)} {i : Nat} {e : CacheEntry K V}
    (h : l[i]? = some e) (v : V) :
    (l.set i ⟨e.key, v⟩).map CacheEntry.key = l.map CacheEntry.key := by
  rw [List.map_set]
  exact set_self_of_getElem? (by rw [List.getElem?_map, h]; rfl)

/-! Concrete cache states used by the closed witness theorems below. -/

/-- The cache produced by `Cache::new(8)`. -/
def cacheEight : Cache Nat Nat :=
  { frequent := [], recent := [], ghost := [],
    max_frequent := 6, max_recent := 2, max_ghost := 4 }

/-- The cache produced by `Cache::new(1)`. -/
def sizeOne : Cache Nat Nat :=
  { frequent := [], recent := [], ghost := [],
    max_frequent := 0, max_recent := 1, max_ghost := 0 }

/-- State of the size-1 cache after `insert(100, 0); insert(200, 0)`. -/
def sizeOneB : Cache Nat Nat := ((sizeOne.insert 100 0).2.insert 200 0).2

/-- State of the size-1 cache after a further `insert(100, 1)` (the key 100
is picked up from the ghost list and promoted to `frequent`). -/
def sizeOneC : Cache Nat Nat := (sizeOneB.insert 100 1).2

/-! Claim theorems. -/

/-- C8: for every `size > 0`, `Cache::new(size)` succeeds and produces
exactly `max_recent = max(1, size / 4)` (integer division),
`max_frequent = size - max_recent`, `max_ghost = size / 2`, with all three
segments initially empty. -/
theorem new_capacities (K V : Type) (size : Nat) (h : 0 < size) :
    Cache.new K V size = some
      { frequent := [], recent := [], ghost := [],
        max_frequent := size - max 1 (size / 4),
        max_recent := max 1 (size / 4),
        max_ghost := size / 2 } := by
  unfold Cache.new
  rw [if_pos h]

theorem new_capacities_witness :
    Cache.new Nat Nat 8 = some
      { frequent := [], recent := [], ghost := [],
        max_frequent := 6, max_recent := 2, max_ghost := 4 } :=
  new_capacities Nat Nat 8 (by decide)

/-- C9: construction fails exactly when `size = 0`, and succeeds for every
positive size — a zero size is rejected, never coerced upward. -/
theorem new_fails_iff_zero (K V : Type) (size : Nat) :
    (Cache.new K V size = none ↔ size = 0) ∧
    ((Cache.new K V size).isSome ↔ 0 < size) := by
  unfold Cache.new
  rcases Nat.eq_zero_or_pos size with rfl | h
  · simp
  · rw [if_pos h]
    simp [h, Nat.pos_iff_ne_zero.mp h]

/-- C5: in every cache state reachable from a fresh cache by the public
operations, no key is present in both `recent` and `frequent`. -/
theorem no_key_in_recent_and_frequent {size : Nat} {c : Cache K V}
    (h : Reachable size c) (k : K) :
    ¬(k ∈ recentKeys c ∧ k ∈ frequentKeys c) :=
  fun hboth => (reachable_inv h).liveDisjoint k hboth.1 hboth.2

theorem no_key_in_recent_and_frequent_witness :
    ¬(1 ∈ recentKeys (cacheEight.applyOp (Op.opInsert 1 10)) ∧
      1 ∈ frequentKeys (cacheEight.applyOp (Op.opInsert 1 10))) :=
  no_key_in_recent_and_frequent
    (Reachable.step cacheEight (Op.opInsert 1 10) (Reachable.init cacheEight rfl : Reachable 8 cacheEight)) 1

/-- C10: in every reachable cache state the keys within each single segment
are pairwise distinct, and every key in `ghost` is absent from both
`recent` and `frequent`. -/
theorem segment_keys_distinct_ghost_disjoint {size : Nat} {c : Cache K V}
    (h : Reachable size c) :
    (recentKeys c).Nodup ∧ (frequentKeys c).Nodup ∧ c.ghost.Nodup ∧
      ∀ k ∈ c.ghost, k ∉ recentKeys c ∧ k ∉ frequentKeys c := by
  obtain ⟨h1, h2, h3, h4, h5, h6⟩ := reachable_inv h
  exact ⟨h1, h2, h3, fun k hk => ⟨h5 k hk, h6 k hk⟩⟩

theorem segment_keys_distinct_ghost_disjoint_witness :
    (recentKeys ((cacheEight.applyOp (Op.opInsert 2 20)).applyOp (Op.opInsert 3 30))).Nodup ∧
    (frequentKeys ((cacheEight.applyOp (Op.opInsert 2 20)).applyOp (Op.opInsert 3 30))).Nodup ∧
    ((cacheEight.applyOp (Op.opInsert 2 20)).applyOp (Op.opInsert 3 30)).ghost.Nodup ∧
    ∀ k ∈ ((cacheEight.applyOp (Op.opInsert 2 20)).applyOp (Op.opInsert 3 30)).ghost,
      k ∉ recentKeys ((cacheEight.applyOp (Op.opInsert 2 20)).applyOp (Op.opInsert 3 30)) ∧
      k ∉ frequentKeys ((cacheEight.applyOp (Op.opInsert 2 20)).applyOp (Op.opInsert 3 30)) :=
  segment_keys_distinct_ghost_disjoint
    (Reachable.step _ (Op.opInsert 3 30)
      (Reachable.step cacheEight (Op.opInsert 2 20) (Reachable.init cacheEight rfl : Reachable 8 cacheEight)))

/-- C2: for a key `k` absent from `recent` and `frequent` but present in
`ghost`, `insert(k, v)` removes `k` from `ghost`, evicts the back (LRU)
element of `frequent` exactly when `len(frequent) + 1 > max_frequent` — and
that evicted element's key is not added to `ghost` (the ghost list only
shrinks here) — and pushes the new slot `(k, v)` to the front of
`frequent`; `recent` is untouched. -/
theorem insert_ghost_promotes {c : Cache K V} {k : K} (v : V)
    (hkr : k ∉ recentKeys c) (hkf : k ∉ frequentKeys c) (hkg : k ∈ c.ghost) :
    ∃ g₁ g₂, c.ghost = g₁ ++ k :: g₂ ∧ k ∉ g₁ ∧
      c.insert k v = (none, { c with
        ghost := g₁ ++ g₂,
        frequent := ⟨k, v⟩ ::
          (if c.frequent.length + 1 > c.max_frequent then c.frequent.dropLast
           else c.frequent) }) := by
  have hf := findIdx?_key_none_iff.mpr hkf
  have hr := findIdx?_key_none_iff.mpr hkr
  rcases hgg : c.ghost.findIdx? (fun g => g == k) with _ | i
  · exact absurd hkg (findIdx?_ghost_none_iff.mp hgg)
  · obtain ⟨g₁, a, g₂, hg, -, pa, hfirst, -, herase, -⟩ := findIdx?_some_decomp hgg
    have hak : a = k := by simpa using pa
    subst hak
    refine ⟨g₁, g₂, hg, ?_, ?_⟩
    · intro hmem
      simpa using hfirst a hmem
    · rw [insert_ghost hf hr hgg]
      unfold Cache.vacant_insert_ghost
      rw [herase]

theorem insert_ghost_promotes_witness :
    ∃ g₁ g₂,
      (⟨[⟨1, 10⟩], [⟨2, 20⟩], [3], 1, 1, 1⟩ : Cache Nat Nat).ghost = g₁ ++ 3 :: g₂ ∧
      (3 : Nat) ∉ g₁ ∧
      (⟨[⟨1, 10⟩], [⟨2, 20⟩], [3], 1, 1, 1⟩ : Cache Nat Nat).insert 3 30 =
        (none, { (⟨[⟨1, 10⟩], [⟨2, 20⟩], [3], 1, 1, 1⟩ : Cache Nat Nat) with
          ghost := g₁ ++ g₂,
          frequent := ⟨3, 30⟩ ::
            (if (⟨[⟨1, 10⟩], [⟨2, 20⟩], [3], 1, 1, 1⟩ : Cache Nat Nat).frequent.length + 1 >
                (⟨[⟨1, 10⟩], [⟨2, 20⟩], [3], 1, 1, 1⟩ : Cache Nat Nat).max_frequent then
              (⟨[⟨1, 10⟩], [⟨2, 20⟩], [3], 1, 1, 1⟩ : Cache Nat Nat).frequent.dropLast
             else
              (⟨[⟨1, 10⟩], [⟨2, 20⟩], [3], 1, 1, 1⟩ : Cache Nat Nat).frequent) }) :=
  insert_ghost_promotes 30 (by decide) (by decide) (by decide)

/-- C3: for a key `k` absent from `recent`, `frequent` and `ghost`,
`insert(k, v)` pushes `(k, v)` to the front of `recent`; when
`len(recent) + 1 > max_recent` the back (oldest) slot of `recent` is first
removed and its key pushed to the front of `ghost` (after dropping the back
of `ghost` when `len(ghost) + 1 > max_ghost`). -/
theorem insert_unknown_evicts {c : Cache K V} {k : K} (v : V)
    (hkr : k ∉ recentKeys c) (hkf : k ∉ frequentKeys c) (hkg : k ∉ c.ghost) :
    (c.recent.length + 1 ≤ c.max_recent →
      c.insert k v = (none, { c with recent := ⟨k, v⟩ :: c.recent })) ∧
    (∀ rs old, c.recent = rs ++ [old] → c.recent.length + 1 > c.max_recent →
      c.insert k v = (none, { c with
        recent := ⟨k, v⟩ :: rs,
        ghost := old.key ::
          (if c.ghost.length + 1 > c.max_ghost then c.ghost.dropLast
           else c.ghost) })) := by
  have hf := findIdx?_key_none_iff.mpr hkf
  have hr := findIdx?_key_none_iff.mpr hkr
  have hg := findIdx?_ghost_none_iff.mpr hkg
  have hins := insert_unknown (v := v) hf hr hg
  constructor
  · intro hle
    rw [hins]
    unfold Cache.vacant_insert_unknown
    rw [if_neg (by omega)]
  · intro rs old hrec hgt
    rw [hins]
    unfold Cache.vacant_insert_unknown
    rw [if_pos hgt]
    have hlast : c.recent.getLast? = some old := by
      rw [hrec]
      exact List.getLast?_concat rs
    rw [hlast]
    have hdrop : c.recent.dropLast = rs := by
      rw [hrec]
      exact List.dropLast_concat
    rw [hdrop]

theorem insert_unknown_evicts_witness :
    ((⟨[], [⟨7, 70⟩], [9], 2, 1, 1⟩ : Cache Nat Nat).recent.length + 1 ≤
        (⟨[], [⟨7, 70⟩], [9], 2, 1, 1⟩ : Cache Nat Nat).max_recent →
      (⟨[], [⟨7, 70⟩], [9], 2, 1, 1⟩ : Cache Nat Nat).insert 8 80 =
        (none, { (⟨[], [⟨7, 70⟩], [9], 2, 1, 1⟩ : Cache Nat Nat) with
          recent := ⟨8, 80⟩ :: (⟨[], [⟨7, 70⟩], [9], 2, 1, 1⟩ : Cache Nat Nat).recent })) ∧
    (∀ rs old,
      (⟨[], [⟨7, 70⟩], [9], 2, 1, 1⟩ : Cache Nat Nat).recent = rs ++ [old] →
      (⟨[], [⟨7, 70⟩], [9], 2, 1, 1⟩ : Cache Nat Nat).recent.length + 1 >
        (⟨[], [⟨7, 70⟩], [9], 2, 1, 1⟩ : Cache Nat Nat).max_recent →
      (⟨[], [⟨7, 70⟩], [9], 2, 1, 1⟩ : Cache Nat Nat).insert 8 80 =
        (none, { (⟨[], [⟨7, 70⟩], [9], 2, 1, 1⟩ : Cache Nat Nat) with
          recent := ⟨8, 80⟩ :: rs,
          ghost := old.key ::
            (if (⟨[], [⟨7, 70⟩], [9], 2, 1, 1⟩ : Cache Nat Nat).ghost.length + 1 >
                (⟨[], [⟨7, 70⟩], [9], 2, 1, 1⟩ : Cache Nat Nat).max_ghost then
              (⟨[], [⟨7, 70⟩], [9], 2, 1, 1⟩ : Cache Nat Nat).ghost.dropLast
             else (⟨[], [⟨7, 70⟩], [9], 2, 1, 1⟩ : Cache Nat Nat).ghost) })) :=
  insert_unknown_evicts 80 (by decide) (by decide) (by decide)

/-- C4: `get(k)` on a key in `recent` returns its value and changes nothing
(in particular `recent`'s order); on a key in `frequent` but not `recent` it
removes the slot from its position, reinserts it at the front of `frequent`
and returns its value; on a key in neither it returns absent and changes
nothing. -/
theorem get_promotes_frequent_only (c : Cache K V) (k : K) :
    (k ∈ recentKeys c → ∃ e, e.key = k ∧
      c.recent.find? (fun x => x.key == k) = some e ∧ c.get k = (some e.value, c)) ∧
    (k ∉ recentKeys c → k ∈ frequentKeys c → ∃ l₁ e l₂,
      c.frequent = l₁ ++ e :: l₂ ∧ e.key = k ∧ k ∉ l₁.map CacheEntry.key ∧
      c.get k = (some e.value, { c with frequent := e :: (l₁ ++ l₂) })) ∧
    (k ∉ recentKeys c → k ∉ frequentKeys c → c.get k = (none, c)) := by
  refine ⟨?_, ?_, ?_⟩
  · intro hmem
    obtain ⟨e, hfind, hek⟩ := find?_key_of_mem hmem
    exact ⟨e, hek, hfind, get_recent_hit hfind⟩
  · intro hnr hmem
    have hr := find?_key_none_iff.mpr hnr
    obtain ⟨i, hff⟩ := findIdx?_key_of_mem hmem
    obtain ⟨l₁, e, l₂, hl, -, pa, hfirst, hget, herase, -⟩ := findIdx?_some_decomp hff
    refine ⟨l₁, e, l₂, hl, by simpa using pa, ?_, ?_⟩
    · intro hk1
      obtain ⟨b, hb, hbk⟩ := List.mem_map.mp hk1
      have := hfirst b hb
      rw [hbk] at this
      simp at this
    · rw [get_frequent_hit hr hff hget, herase]
  · intro hnr hnf
    exact get_miss (find?_key_none_iff.mpr hnr) (findIdx?_key_none_iff.mpr hnf)

theorem get_promotes_frequent_only_witness :
    ((5 : Nat) ∈ recentKeys (⟨[⟨4, 40⟩, ⟨6, 60⟩], [⟨5, 50⟩], [], 6, 2, 4⟩ : Cache Nat Nat) →
      ∃ e, e.key = 5 ∧
        (⟨[⟨4, 40⟩, ⟨6, 60⟩], [⟨5, 50⟩], [], 6, 2, 4⟩ : Cache Nat Nat).recent.find?
          (fun x => x.key == 5) = some e ∧
        (⟨[⟨4, 40⟩, ⟨6, 60⟩], [⟨5, 50⟩], [], 6, 2, 4⟩ : Cache Nat Nat).get 5 =
          (some e.value, ⟨[⟨4, 40⟩, ⟨6, 60⟩], [⟨5, 50⟩], [], 6, 2, 4⟩)) ∧
    ((5 : Nat) ∉ recentKeys (⟨[⟨4, 40⟩, ⟨6, 60⟩], [⟨5, 50⟩], [], 6, 2, 4⟩ : Cache Nat Nat) →
      (5 : Nat) ∈ frequentKeys (⟨[⟨4, 40⟩, ⟨6, 60⟩], [⟨5, 50⟩], [], 6, 2, 4⟩ : Cache Nat Nat) →
      ∃ l₁ e l₂,
        (⟨[⟨4, 40⟩, ⟨6, 60⟩], [⟨5, 50⟩], [], 6, 2, 4⟩ : Cache Nat Nat).frequent =
          l₁ ++ e :: l₂ ∧ e.key = 5 ∧ (5 : Nat) ∉ l₁.map CacheEntry.key ∧
        (⟨[⟨4, 40⟩, ⟨6, 60⟩], [⟨5, 50⟩], [], 6, 2, 4⟩ : Cache Nat Nat).get 5 =
          (some e.value,
            { (⟨[⟨4, 40⟩, ⟨6, 60⟩], [⟨5, 50⟩], [], 6, 2, 4⟩ : Cache Nat Nat) with
              frequent := e :: (l₁ ++ l₂) })) ∧
    ((5 : Nat) ∉ recentKeys (⟨[⟨4, 40⟩, ⟨6, 60⟩], [⟨5, 50⟩], [], 6, 2, 4⟩ : Cache Nat Nat) →
      (5 : Nat) ∉ frequentKeys (⟨[⟨4, 40⟩, ⟨6, 60⟩], [⟨5, 50⟩], [], 6, 2, 4⟩ : Cache Nat Nat) →
      (⟨[⟨4, 40⟩, ⟨6, 60⟩], [⟨5, 50⟩], [], 6, 2, 4⟩ : Cache Nat Nat).get 5 =
        (none, ⟨[⟨4, 40⟩, ⟨6, 60⟩], [⟨5, 50⟩], [], 6, 2, 4⟩)) :=
  get_promotes_frequent_only (⟨[⟨4, 40⟩, ⟨6, 60⟩], [⟨5, 50⟩], [], 6, 2, 4⟩ : Cache Nat Nat) 5

/-- C7: `remove(k)` deletes the slot and returns its value when `k` is in
`recent` or (failing that) `frequent`, returns absent otherwise, and in
every case leaves `ghost` exactly as it was. -/
theorem remove_no_ghost_effect (c : Cache K V) (k : K) :
    ((c.remove k).2.ghost = c.ghost) ∧
    (k ∈ recentKeys c → ∃ l₁ e l₂,
      c.recent = l₁ ++ e :: l₂ ∧ e.key = k ∧ k ∉ l₁.map CacheEntry.key ∧
      c.remove k = (some e.value, { c with recent := l₁ ++ l₂ })) ∧
    (k ∉ recentKeys c → k ∈ frequentKeys c → ∃ l₁ e l₂,
      c.frequent = l₁ ++ e :: l₂ ∧ e.key = k ∧ k ∉ l₁.map CacheEntry.key ∧
      c.remove k = (some e.value, { c with frequent := l₁ ++ l₂ })) ∧
    (k ∉ recentKeys c → k ∉ frequentKeys c → c.remove k = (none, c)) := by
  refine ⟨?_, ?_, ?_, ?_⟩
  · unfold Cache.remove
    split
    · split
      · rfl
      · rfl
    · split
      · split
        · rfl
        · rfl
      · rfl
  · intro hmem
    obtain ⟨i, hrr⟩ := findIdx?_key_of_mem hmem
    obtain ⟨l₁, e, l₂, hl, -, pa, hfirst, hget, herase, -⟩ := findIdx?_some_decomp hrr
    refine ⟨l₁, e, l₂, hl, by simpa using pa, ?_, ?_⟩
    · intro hk1
      obtain ⟨b, hb, hbk⟩ := List.mem_map.mp hk1
      have := hfirst b hb
      rw [hbk] at this
      simp at this
    · rw [remove_recent_hit hrr hget, herase]
  · intro hnr hmem
    have hr := findIdx?_key_none_iff.mpr hnr
    obtain ⟨i, hff⟩ := findIdx?_key_of_mem hmem
    obtain ⟨l₁, e, l₂, hl, -, pa, hfirst, hget, herase, -⟩ := findIdx?_some_decomp hff
    refine ⟨l₁, e, l₂, hl, by simpa using pa, ?_, ?_⟩
    · intro hk1
      obtain ⟨b, hb, hbk⟩ := List.mem_map.mp hk1
      have := hfirst b hb
      rw [hbk] at this
      simp at this
    · rw [remove_frequent_hit hr hff hget, herase]
  · intro hnr hnf
    exact remove_miss (findIdx?_key_none_iff.mpr hnr) (findIdx?_key_none_iff.mpr hnf)

theorem remove_no_ghost_effect_witness :
    (((⟨[⟨4, 40⟩], [⟨5, 50⟩], [7], 6, 2, 4⟩ : Cache Nat Nat).remove 4).2.ghost =
      (⟨[⟨4, 40⟩], [⟨5, 50⟩], [7], 6, 2, 4⟩ : Cache Nat Nat).ghost) ∧
    ((4 : Nat) ∈ recentKeys (⟨[⟨4, 40⟩], [⟨5, 50⟩], [7], 6, 2, 4⟩ : Cache Nat Nat) →
      ∃ l₁ e l₂,
        (⟨[⟨4, 40⟩], [⟨5, 50⟩], [7], 6, 2, 4⟩ : Cache Nat Nat).recent = l₁ ++ e :: l₂ ∧
        e.key = 4 ∧ (4 : Nat) ∉ l₁.map CacheEntry.key ∧
        (⟨[⟨4, 40⟩], [⟨5, 50⟩], [7], 6, 2, 4⟩ : Cache Nat Nat).remove 4 =
          (some e.value,
            { (⟨[⟨4, 40⟩], [⟨5, 50⟩], [7], 6, 2, 4⟩ : Cache Nat Nat) with
              recent := l₁ ++ l₂ })) ∧
    ((4 : Nat) ∉ recentKeys (⟨[⟨4, 40⟩], [⟨5, 50⟩], [7], 6, 2, 4⟩ : Cache Nat Nat) →
      (4 : Nat) ∈ frequentKeys (⟨[⟨4, 40⟩], [⟨5, 50⟩], [7], 6, 2, 4⟩ : Cache Nat Nat) →
      ∃ l₁ e l₂,
        (⟨[⟨4, 40⟩], [⟨5, 50⟩], [7], 6, 2, 4⟩ : Cache Nat Nat).frequent = l₁ ++ e :: l₂ ∧
        e.key = 4 ∧ (4 : Nat) ∉ l₁.map CacheEntry.key ∧
        (⟨[⟨4, 40⟩], [⟨5, 50⟩], [7], 6, 2, 4⟩ : Cache Nat Nat).remove 4 =
          (some e.value,
            { (⟨[⟨4, 40⟩], [⟨5, 50⟩], [7], 6, 2, 4⟩ : Cache Nat Nat) with
              frequent := l₁ ++ l₂ })) ∧
    ((4 : Nat) ∉ recentKeys (⟨[⟨4, 40⟩], [⟨5, 50⟩], [7], 6, 2, 4⟩ : Cache Nat Nat) →
      (4 : Nat) ∉ frequentKeys (⟨[⟨4, 40⟩], [⟨5, 50⟩], [7], 6, 2, 4⟩ : Cache Nat Nat) →
      (⟨[⟨4, 40⟩], [⟨5, 50⟩], [7], 6, 2, 4⟩ : Cache Nat Nat).remove 4 =
        (none, ⟨[⟨4, 40⟩], [⟨5, 50⟩], [7], 6, 2, 4⟩)) :=
  remove_no_ghost_effect (⟨[⟨4, 40⟩], [⟨5, 50⟩], [7], 6, 2, 4⟩ : Cache Nat Nat) 4

theorem peek_recent_hit {c : Cache K V} {k : K} {e : CacheEntry K V}
    (h : c.recent.find? (fun x => x.key == k) = some e) :
    c.peek k = some e.value := by
  unfold Cache.peek
  rw [h]

theorem get_fst_of_recent_head {c : Cache K V} {k : K} {v : V}
    (h : ∃ rest, c.recent = ⟨k, v⟩ :: rest) : (c.get k).1 = some v := by
  obtain ⟨rest, hrec⟩ := h
  have hfind : c.recent.find? (fun x => x.key == k) = some ⟨k, v⟩ := by
    rw [hrec]
    exact List.find?_cons_of_pos rest (by simp)
  rw [get_recent_hit hfind]

theorem get_fst_of_frequent_head {c : Cache K V} {k : K} {v : V}
    (hr : c.recent.find? (fun x => x.key == k) = none)
    (h : ∃ rest, c.frequent = ⟨k, v⟩ :: rest) : (c.get k).1 = some v := by
  obtain ⟨rest, hfreq⟩ := h
  have hf0 : c.frequent.findIdx? (fun x => x.key == k) = some 0 := by
    rw [hfreq, List.findIdx?_cons]
    simp
  have hg0 : c.frequent[0]? = some ⟨k, v⟩ := by
    rw [hfreq]
    simp
  rw [get_frequent_hit hr hf0 hg0]

theorem peek_frequent_hit {c : Cache K V} {k : K} {e : CacheEntry K V}
    (hr : c.recent.find? (fun x => x.key == k) = none)
    (hf : c.frequent.find? (fun x => x.key == k) = some e) :
    c.peek k = some e.value := by
  unfold Cache.peek
  rw [hr, hf]

/-- C6: under the (invariant) assumption that `k` is not in both live
segments at once: inserting `(k, v)` and immediately reading `k` back with
`get` yields `v`; and if `k` was already present with value `v₀` (the value
`peek` reports), `insert(k, v)` returns `v₀`, afterwards the cache stores
`v` for `k`, the `recent` keys are exactly unchanged and the `frequent`
keys are a permutation of the old ones (only the promotion applied at
classification time may have moved `k` to the front), with `ghost`
untouched. -/
theorem insert_get_roundtrip_update (c : Cache K V) (k : K) (v : V)
    (hd : ¬(k ∈ recentKeys c ∧ k ∈ frequentKeys c)) :
    (((c.insert k v).2.get k).1 = some v) ∧
    (k ∈ recentKeys c ∨ k ∈ frequentKeys c → ∃ v₀,
      c.peek k = some v₀ ∧ (c.insert k v).1 = some v₀ ∧
      (c.insert k v).2.peek k = some v ∧
      recentKeys (c.insert k v).2 = recentKeys c ∧
      (frequentKeys (c.insert k v).2).Perm (frequentKeys c) ∧
      (c.insert k v).2.ghost = c.ghost) := by
  rcases hff : c.frequent.findIdx? (fun e => e.key == k) with _ | i
  · have hknf : k ∉ frequentKeys c := findIdx?_key_none_iff.mp hff
    rcases hrr : c.recent.findIdx? (fun e => e.key == k) with _ | i
    · have hknr : k ∉ recentKeys c := findIdx?_key_none_iff.mp hrr
      refine ⟨?_, ?_⟩
      · rcases hgg : c.ghost.findIdx? (fun g => g == k) with _ | i
        · rw [insert_unknown hff hrr hgg]
          show ((c.vacant_insert_unknown k v).get k).1 = some v
          apply get_fst_of_recent_head
          unfold Cache.vacant_insert_unknown
          by_cases hov : c.recent.length + 1 > c.max_recent
          · rw [if_pos hov]
            rcases hlast : c.recent.getLast? with _ | old
            · exact ⟨c.recent, rfl⟩
            · exact ⟨c.recent.dropLast, rfl⟩
          · rw [if_neg hov]
            exact ⟨c.recent, rfl⟩
        · rw [insert_ghost hff hrr hgg]
          show ((c.vacant_insert_ghost i k v).get k).1 = some v
          apply get_fst_of_frequent_head
          · exact find?_key_none_iff.mpr hknr
          · exact ⟨if c.frequent.length + 1 > c.max_frequent then c.frequent.dropLast
              else c.frequent, rfl⟩
      · intro hmem
        rcases hmem with hmem | hmem
        · exact absurd hmem hknr
        · exact absurd hmem hknf
    · obtain ⟨l₁, e, l₂, hl, -, pa, hfirst, hget, -, hset⟩ := findIdx?_some_decomp hrr
      have hins := insert_recent (v := v) hff hrr hget
      have hfind : c.recent.find? (fun x => x.key == k) = some e := by
        rw [hl]
        exact find?_middle hfirst pa
      have hfind2 : (c.recent.set i ⟨e.key, v⟩).find? (fun x => x.key == k) =
          some ⟨e.key, v⟩ := by
        rw [hset ⟨e.key, v⟩]
        exact find?_middle hfirst pa
      refine ⟨?_, ?_⟩
      · rw [hins]
        rw [get_recent_hit hfind2]
      · intro hmem
        refine ⟨e.value, peek_recent_hit hfind, by rw [hins], ?_, ?_, ?_, ?_⟩
        · rw [hins]
          show ({ c with recent := c.recent.set i ⟨e.key, v⟩ } : Cache K V).peek k = some v
          exact peek_recent_hit (c := { c with recent := c.recent.set i ⟨e.key, v⟩ }) hfind2
        · rw [hins]
          exact keys_set_same hget v
        · rw [hins]
          exact List.Perm.refl _
        · rw [hins]
  · obtain ⟨l₁, e, l₂, hl, -, pa, hfirst, hget, -, -⟩ := findIdx?_some_decomp hff
    have hek : e.key = k := by simpa using pa
    have hkf : k ∈ frequentKeys c := by
      rw [frequentKeys, hl]
      simp [hek]
    have hknr : k ∉ recentKeys c := fun hmem => hd ⟨hmem, hkf⟩
    have hr1 : c.recent.find? (fun x => x.key == k) = none :=
      find?_key_none_iff.mpr hknr
    have hins := insert_frequent (v := v) hff hget
    have hperm := keys_moveToFront_perm hget
    refine ⟨?_, ?_⟩
    · rw [hins]
      apply get_fst_of_frequent_head
      · exact hr1
      · refine ⟨c.frequent.eraseIdx i, ?_⟩
        show (⟨e.key, v⟩ : CacheEntry K V) :: c.frequent.eraseIdx i =
          ⟨k, v⟩ :: c.frequent.eraseIdx i
        rw [hek]
    · intro hmem
      refine ⟨e.value, ?_, by rw [hins], ?_, ?_, ?_, ?_⟩
      · refine peek_frequent_hit hr1 ?_
        rw [hl]
        exact find?_middle hfirst pa
      · rw [hins]
        show ({ c with frequent := ⟨e.key, v⟩ :: c.frequent.eraseIdx i } : Cache K V).peek k =
          some v
        refine peek_frequent_hit (e := ⟨e.key, v⟩) ?_ ?_
        · exact hr1
        · exact List.find?_cons_of_pos _ (by simp [pa])
      · rw [hins]
        rfl
      · rw [hins]
        show ((⟨e.key, v⟩ :: c.frequent.eraseIdx i).map CacheEntry.key).Perm
          (frequentKeys c)
        rw [List.map_cons]
        exact hperm
      · rw [hins]

theorem insert_get_roundtrip_update_witness :
    ((((⟨[⟨4, 40⟩], [⟨5, 50⟩], [7], 6, 2, 4⟩ : Cache Nat Nat).insert 4 41).2.get 4).1 =
      some 41) ∧
    ((4 : Nat) ∈ recentKeys (⟨[⟨4, 40⟩], [⟨5, 50⟩], [7], 6, 2, 4⟩ : Cache Nat Nat) ∨
     (4 : Nat) ∈ frequentKeys (⟨[⟨4, 40⟩], [⟨5, 50⟩], [7], 6, 2, 4⟩ : Cache Nat Nat) →
      ∃ v₀,
        (⟨[⟨4, 40⟩], [⟨5, 50⟩], [7], 6, 2, 4⟩ : Cache Nat Nat).peek 4 = some v₀ ∧
        ((⟨[⟨4, 40⟩], [⟨5, 50⟩], [7], 6, 2, 4⟩ : Cache Nat Nat).insert 4 41).1 = some v₀ ∧
        ((⟨[⟨4, 40⟩], [⟨5, 50⟩], [7], 6, 2, 4⟩ : Cache Nat Nat).insert 4 41).2.peek 4 =
          some 41 ∧
        recentKeys ((⟨[⟨4, 40⟩], [⟨5, 50⟩], [7], 6, 2, 4⟩ : Cache Nat Nat).insert 4 41).2 =
          recentKeys (⟨[⟨4, 40⟩], [⟨5, 50⟩], [7], 6, 2, 4⟩ : Cache Nat Nat) ∧
        (frequentKeys
            ((⟨[⟨4, 40⟩], [⟨5, 50⟩], [7], 6, 2, 4⟩ : Cache Nat Nat).insert 4 41).2).Perm
          (frequentKeys (⟨[⟨4, 40⟩], [⟨5, 50⟩], [7], 6, 2, 4⟩ : Cache Nat Nat)) ∧
        ((⟨[⟨4, 40⟩], [⟨5, 50⟩], [7], 6, 2, 4⟩ : Cache Nat Nat).insert 4 41).2.ghost =
          (⟨[⟨4, 40⟩], [⟨5, 50⟩], [7], 6, 2, 4⟩ : Cache Nat Nat).ghost) :=
  insert_get_roundtrip_update (⟨[⟨4, 40⟩], [⟨5, 50⟩], [7], 6, 2, 4⟩ : Cache Nat Nat) 4 41
    (by decide)

/-- C1: evaluation of the code at `size = 1`.  `Cache::new(1)` gives
`max_recent = 1`, `max_frequent = 0`, `max_ghost = 0`.  After
`insert(100, 0); insert(200, 0)` the ghost list holds one key although
`max_ghost = 0`, and after a further `insert(100, 1)` (ghost promotion) the
frequent list holds one slot although `max_frequent = 0`, so the total
number of live entries is 2 > size = 1.  The segment bounds claimed for
every `size > 0` therefore fail at `size = 1`. -/
theorem size_one_bounds_violated :
    Cache.new Nat Nat 1 = some sizeOne ∧
    sizeOneB.ghost.length = 1 ∧ sizeOneB.max_ghost = 0 ∧
    sizeOneC.frequent.length = 1 ∧ sizeOneC.max_frequent = 0 ∧
    sizeOneC.len = 2 := by
  refine ⟨rfl, ?_, ?_, ?_, ?_, ?_⟩ <;> rfl

end TwoQ
